import Mathlib

/-!
# Verification of the TOC Document Stitcher engine

A shallow embedding of the Markdown stitching engine of the
TOC-Document-Stitcher repository: TOC parsing, hierarchical tree
construction, title-to-file matching, heading alignment, slug/anchor
generation and the preorder assembler, together with the effect trace of
the program entry point `main`.

The repository ships only `main.pyw` plus its README; the engine module
itself (`core.py`/`gui.py`) is absent, so the engine components below are
modelled from the specification's component contracts and marked as such
in their doc comments.
-/

set_option autoImplicit false

namespace Stitcher

/-- Modelled from the spec: `TOCEntry` — `(level ≥ 1, title)` pair produced in
source order from the TOC file by the TOC Parser (missing `core.py`). -/
structure TOCEntry where
  level : Nat
  title : String
  deriving Repr, DecidableEq

/-- Modelled from the spec: `TOCNode` — a tree node with `level`, `title`,
ordered `children`, and a flag marking whether the node denotes the
table-of-contents section itself (missing `core.py`). -/
inductive TOCNode where
  | mk (level : Nat) (title : String) (isTOC : Bool) (children : List TOCNode)
  deriving Repr

namespace TOCNode

def level : TOCNode → Nat
  | mk l _ _ _ => l

def title : TOCNode → String
  | mk _ t _ _ => t

def isTOC : TOCNode → Bool
  | mk _ _ b _ => b

def children : TOCNode → List TOCNode
  | mk _ _ _ cs => cs

@[simp] theorem level_mk (l : Nat) (t : String) (b : Bool) (cs : List TOCNode) :
    (mk l t b cs).level = l := rfl

@[simp] theorem title_mk (l : Nat) (t : String) (b : Bool) (cs : List TOCNode) :
    (mk l t b cs).title = t := rfl

@[simp] theorem isTOC_mk (l : Nat) (t : String) (b : Bool) (cs : List TOCNode) :
    (mk l t b cs).isTOC = b := rfl

@[simp] theorem children_mk (l : Nat) (t : String) (b : Bool) (cs : List TOCNode) :
    (mk l t b cs).children = cs := rfl

end TOCNode

mutual

/-- Preorder flattening of a tree back into the flat entry sequence:
the node's own `(level, title)` entry followed by its children's
flattenings, children in order. -/
def flattenNode : TOCNode → List TOCEntry
  | .mk l t _ cs => ⟨l, t⟩ :: flattenForest cs

/-- Preorder flattening of an ordered forest. -/
def flattenForest : List TOCNode → List TOCEntry
  | [] => []
  | n :: ns => flattenNode n ++ flattenForest ns

end

@[simp] theorem flattenNode_mk (l : Nat) (t : String) (b : Bool) (cs : List TOCNode) :
    flattenNode (.mk l t b cs) = ⟨l, t⟩ :: flattenForest cs := by
  rw [flattenNode]

@[simp] theorem flattenForest_nil : flattenForest [] = [] := by rw [flattenForest]

@[simp] theorem flattenForest_cons (n : TOCNode) (ns : List TOCNode) :
    flattenForest (n :: ns) = flattenNode n ++ flattenForest ns := by
  rw [flattenForest]

theorem flattenForest_append (xs ys : List TOCNode) :
    flattenForest (xs ++ ys) = flattenForest xs ++ flattenForest ys := by
  induction xs with
  | nil => simp
  | cons n ns ih => simp [ih]

/-- Modelled from the spec: one frame of the Hierarchy Builder's stack of
open nodes (missing `core.py`): the entry data of a node still open for
children, its children accumulated in reverse order. -/
structure Frame where
  level : Nat
  title : String
  childrenRev : List TOCNode
  deriving Repr

/-- Close a stack frame into a finished node (children restored to
source order).  Flags are attached by a separate marking pass, so the
builder produces unflagged nodes. -/
def finishFrame (f : Frame) : TOCNode :=
  .mk f.level f.title false f.childrenRev.reverse

/-- Attach a finished node as the last child of an open frame. -/
def attachChild (n : TOCNode) (f : Frame) : Frame :=
  { f with childrenRev := n :: f.childrenRev }

/-- Pop the top frame `f` into the remaining stack while the level condition
holds: each popped frame is closed and attached as last child of the frame
below it. -/
def popInto (lvl : Nat) (f : Frame) : List Frame → List Frame
  | [] => [f]
  | g :: rest =>
    if lvl ≤ f.level then popInto lvl (attachChild (finishFrame f) g) rest
    else f :: g :: rest

/-- Modelled from the spec: pop the Hierarchy Builder's stack while the top
frame's level is ≥ the incoming entry's level, closing each popped frame and
attaching it as last child of the frame below (missing `core.py`).  The
synthetic root frame (bottom of the stack) is never popped. -/
def popWhile (lvl : Nat) : List Frame → List Frame
  | [] => []
  | f :: rest => popInto lvl f rest

/-- Modelled from the spec: process one TOC entry — pop blocked frames, then
push a fresh open frame for the entry (missing `core.py`). -/
def stepEntry (s : List Frame) (e : TOCEntry) : List Frame :=
  ⟨e.level, e.title, []⟩ :: popWhile e.level s

/-- Close the top frame into all remaining frames, yielding the final node. -/
def finishInto (f : Frame) : List Frame → TOCNode
  | [] => finishFrame f
  | g :: rest => finishInto (attachChild (finishFrame f) g) rest

/-- Close every remaining open frame at end of input, yielding the root node. -/
def finishAll : List Frame → TOCNode
  | [] => .mk 0 "" false []
  | f :: rest => finishInto f rest

/-- Modelled from the spec: the Hierarchy Builder — convert the flat ordered
entry sequence into a rooted tree by the stack-based nesting rule, stack
seeded with a synthetic root of level 0 (missing `core.py`). -/
def buildTree (entries : List TOCEntry) : TOCNode :=
  finishAll (entries.foldl stepEntry [⟨0, "", []⟩])

/-- Preorder flattening of the whole stack, were the input to end now. -/
def stackFlatten (s : List Frame) : List TOCEntry :=
  flattenNode (finishAll s)

theorem flattenNode_finish_attach (n : TOCNode) (f : Frame) :
    flattenNode (finishFrame (attachChild n f)) =
      flattenNode (finishFrame f) ++ flattenNode n := by
  simp [finishFrame, attachChild, flattenForest_append]

theorem flattenNode_finishInto (s : List Frame) (f : Frame) (hs : s ≠ []) :
    flattenNode (finishInto f s) =
      flattenNode (finishAll s) ++ flattenNode (finishFrame f) := by
  induction s generalizing f with
  | nil => exact absurd rfl hs
  | cons g rest ih =>
    cases rest with
    | nil =>
      simp only [finishInto, finishAll]
      exact flattenNode_finish_attach (finishFrame f) g
    | cons g' rest' =>
      have h1 : finishInto f (g :: g' :: rest') =
          finishInto (attachChild (finishFrame f) g) (g' :: rest') := rfl
      rw [h1, ih _ (by simp), flattenNode_finish_attach]
      have h2 : finishAll (g :: g' :: rest') = finishInto g (g' :: rest') := rfl
      rw [h2, ih _ (by simp), List.append_assoc]

theorem stackFlatten_cons (f : Frame) (s : List Frame) (hs : s ≠ []) :
    stackFlatten (f :: s) = stackFlatten s ++ flattenNode (finishFrame f) := by
  simpa [stackFlatten, finishAll] using flattenNode_finishInto s f hs

theorem popInto_ne_nil (lvl : Nat) (f : Frame) (s : List Frame) :
    popInto lvl f s ≠ [] := by
  induction s generalizing f with
  | nil => simp [popInto]
  | cons g rest ih =>
    by_cases h : lvl ≤ f.level
    · simpa [popInto, h] using ih (attachChild (finishFrame f) g)
    · simp [popInto, h]

theorem popWhile_ne_nil (lvl : Nat) (s : List Frame) (hs : s ≠ []) :
    popWhile lvl s ≠ [] := by
  cases s with
  | nil => exact absurd rfl hs
  | cons f rest => exact popInto_ne_nil lvl f rest

theorem stackFlatten_popInto (lvl : Nat) (f : Frame) (s : List Frame) :
    stackFlatten (popInto lvl f s) = stackFlatten (f :: s) := by
  induction s generalizing f with
  | nil => simp [popInto]
  | cons g rest ih =>
    by_cases h : lvl ≤ f.level
    · rw [popInto, if_pos h, ih]
      rfl
    · rw [popInto, if_neg h]

theorem stackFlatten_popWhile (lvl : Nat) (s : List Frame) (hs : s ≠ []) :
    stackFlatten (popWhile lvl s) = stackFlatten s := by
  cases s with
  | nil => exact absurd rfl hs
  | cons f rest => exact stackFlatten_popInto lvl f rest

theorem stackFlatten_stepEntry (s : List Frame) (e : TOCEntry) (hs : s ≠ []) :
    stackFlatten (stepEntry s e) = stackFlatten s ++ [e] := by
  have hne := popWhile_ne_nil e.level s hs
  rw [stepEntry, stackFlatten_cons _ _ hne, stackFlatten_popWhile _ _ hs]
  simp [finishFrame]

theorem stackFlatten_foldl (entries : List TOCEntry) (s : List Frame) (hs : s ≠ []) :
    stackFlatten (entries.foldl stepEntry s) = stackFlatten s ++ entries := by
  induction entries generalizing s with
  | nil => simp
  | cons e es ih =>
    have h1 : stepEntry s e ≠ [] := by simp [stepEntry]
    rw [List.foldl_cons, ih _ h1, stackFlatten_stepEntry _ _ hs,
      List.append_assoc]
    rfl

theorem flattenNode_buildTree (entries : List TOCEntry) :
    flattenNode (buildTree entries) = ⟨0, ""⟩ :: entries := by
  have := stackFlatten_foldl entries [⟨0, "", []⟩] (by simp)
  simpa [buildTree, stackFlatten, finishAll, finishInto, finishFrame] using this

theorem flattenForest_children_buildTree (entries : List TOCEntry) :
    flattenForest (buildTree entries).children = entries := by
  have h := flattenNode_buildTree entries
  cases hb : buildTree entries with
  | mk l t b cs =>
    rw [hb] at h
    rw [flattenNode_mk] at h
    simpa [TOCNode.children] using congrArg List.tail h


mutual

/-- A node is well nested when each child's level strictly exceeds its own
and each child is itself well nested. -/
def nodeWellNested : TOCNode → Bool
  | .mk l _ _ cs => forestWellNested l cs

/-- All nodes of the forest have level above `l` and are well nested. -/
def forestWellNested : Nat → List TOCNode → Bool
  | _, [] => true
  | l, c :: cs => (decide (l < c.level)) && nodeWellNested c && forestWellNested l cs

end

theorem forestWellNested_iff (l : Nat) (cs : List TOCNode) :
    forestWellNested l cs = true ↔
      ∀ c ∈ cs, l < c.level ∧ nodeWellNested c = true := by
  induction cs with
  | nil => simp [forestWellNested]
  | cons c cs ih =>
    rw [forestWellNested]
    simp only [Bool.and_eq_true, decide_eq_true_eq, ih, List.mem_cons]
    constructor
    · rintro ⟨⟨h1, h2⟩, h3⟩ x hx
      rcases hx with rfl | hx
      · exact ⟨h1, h2⟩
      · exact h3 x hx
    · intro h
      exact ⟨⟨(h c (Or.inl rfl)).1, (h c (Or.inl rfl)).2⟩,
        fun x hx => h x (Or.inr hx)⟩

/-- The open frame's accumulated children all sit strictly below it and are
well nested. -/
def frameOK (f : Frame) : Prop :=
  ∀ n ∈ f.childrenRev, f.level < n.level ∧ nodeWellNested n = true

/-- Builder stack invariant: every frame is `frameOK`, levels strictly
decrease from the top of the stack down, and the bottom frame is the
synthetic level-0 root. -/
def framesOK : List Frame → Prop
  | [] => True
  | [f] => frameOK f ∧ f.level = 0
  | f :: g :: rest => frameOK f ∧ g.level < f.level ∧ framesOK (g :: rest)

/-- Level of the stack's top frame (0 for an empty stack). -/
def headLevel : List Frame → Nat
  | [] => 0
  | f :: _ => f.level

theorem nodeWellNested_finishFrame (f : Frame) (hf : frameOK f) :
    nodeWellNested (finishFrame f) = true := by
  rw [finishFrame, nodeWellNested, forestWellNested_iff]
  intro c hc
  exact hf c (List.mem_reverse.mp hc)

theorem frameOK_attachChild (n : TOCNode) (g : Frame)
    (hg : frameOK g) (hlvl : g.level < n.level) (hn : nodeWellNested n = true) :
    frameOK (attachChild n g) := by
  intro c hc
  rcases List.mem_cons.mp hc with rfl | hc
  · exact ⟨hlvl, hn⟩
  · exact hg c hc

theorem framesOK_replace_head (g g' : Frame) (rest : List Frame)
    (h : framesOK (g :: rest)) (hOK : frameOK g') (hlvl : g'.level = g.level) :
    framesOK (g' :: rest) := by
  cases rest with
  | nil => exact ⟨hOK, hlvl ▸ h.2⟩
  | cons r rest' =>
    obtain ⟨_, h2, h3⟩ := h
    exact ⟨hOK, hlvl ▸ h2, h3⟩

theorem frameOK_attach_finish (f g : Frame)
    (hf : frameOK f) (hg : frameOK g) (hlvl : g.level < f.level) :
    frameOK (attachChild (finishFrame f) g) :=
  frameOK_attachChild _ _ hg (by simpa [finishFrame] using hlvl)
    (nodeWellNested_finishFrame f hf)

theorem framesOK_popInto (lvl : Nat) (f : Frame) (s : List Frame)
    (h : framesOK (f :: s)) (hlvl : 1 ≤ lvl) :
    framesOK (popInto lvl f s) ∧ headLevel (popInto lvl f s) < lvl := by
  induction s generalizing f with
  | nil =>
    obtain ⟨h1, h2⟩ := h
    refine ⟨⟨h1, h2⟩, ?_⟩
    simp [popInto, headLevel]
    omega
  | cons g rest ih =>
    obtain ⟨h1, h2, h3⟩ := h
    by_cases hcond : lvl ≤ f.level
    · rw [popInto, if_pos hcond]
      refine ih (attachChild (finishFrame f) g) ?_
      have hgOK : frameOK g := by
        cases rest with
        | nil => exact h3.1
        | cons r rest' => exact h3.1
      exact framesOK_replace_head g _ rest h3
        (frameOK_attach_finish f g h1 hgOK h2) rfl
    · rw [popInto, if_neg hcond]
      exact ⟨⟨h1, h2, h3⟩, by simp [headLevel]; omega⟩

theorem framesOK_stepEntry (s : List Frame) (e : TOCEntry)
    (h : framesOK s) (hs : s ≠ []) (he : 1 ≤ e.level) :
    framesOK (stepEntry s e) := by
  cases s with
  | nil => exact absurd rfl hs
  | cons f rest =>
    obtain ⟨hOK, hhd⟩ := framesOK_popInto e.level f rest h he
    rw [stepEntry, popWhile]
    have hne := popInto_ne_nil e.level f rest
    cases hp : popInto e.level f rest with
    | nil => exact absurd hp hne
    | cons p prest =>
      rw [hp] at hOK hhd
      exact ⟨fun n hn => absurd hn (List.not_mem_nil n), hhd, hOK⟩

theorem framesOK_foldl (entries : List TOCEntry) (s : List Frame)
    (h : framesOK s) (hs : s ≠ []) (he : ∀ e ∈ entries, 1 ≤ e.level) :
    framesOK (entries.foldl stepEntry s) := by
  induction entries generalizing s with
  | nil => simpa
  | cons e es ih =>
    rw [List.foldl_cons]
    exact ih (stepEntry s e)
      (framesOK_stepEntry s e h hs (he e (List.mem_cons_self e es)))
      (by simp [stepEntry])
      (fun x hx => he x (List.mem_cons_of_mem e hx))

theorem nodeWellNested_finishInto (s : List Frame) (f : Frame)
    (h : framesOK (f :: s)) :
    nodeWellNested (finishInto f s) = true := by
  induction s generalizing f with
  | nil => exact nodeWellNested_finishFrame f h.1
  | cons g rest ih =>
    obtain ⟨h1, h2, h3⟩ := h
    rw [finishInto]
    refine ih (attachChild (finishFrame f) g) ?_
    have hgOK : frameOK g := by
      cases rest with
      | nil => exact h3.1
      | cons r rest' => exact h3.1
    exact framesOK_replace_head g _ rest h3
      (frameOK_attach_finish f g h1 hgOK h2) rfl

theorem nodeWellNested_buildTree (entries : List TOCEntry)
    (he : ∀ e ∈ entries, 1 ≤ e.level) :
    nodeWellNested (buildTree entries) = true := by
  have hOK : framesOK (entries.foldl stepEntry [⟨0, "", []⟩]) :=
    framesOK_foldl entries [⟨0, "", []⟩]
      ⟨fun n hn => absurd hn (List.not_mem_nil n), rfl⟩ (by simp) he
  rw [buildTree]
  cases hs : entries.foldl stepEntry [⟨0, "", []⟩] with
  | nil => simp [finishAll, nodeWellNested, forestWellNested]
  | cons f rest =>
    rw [hs] at hOK
    exact nodeWellNested_finishInto rest f hOK

/-- C1: for every ordered sequence of TOC entries whose levels are all at
least 1, the preorder traversal of the tree produced by the Hierarchy
Builder visits the entries in exactly the original source order —
flattening the built tree in preorder is the identity on the entry
sequence. -/
theorem hierarchy_preorder_preserves_order (entries : List TOCEntry)
    (_h : ∀ e ∈ entries, 1 ≤ e.level) :
    flattenForest (buildTree entries).children = entries :=
  flattenForest_children_buildTree entries

/-- Witness for C1 at a concrete entry sequence. -/
theorem hierarchy_preorder_preserves_order_witness :
    flattenForest (buildTree [TOCEntry.mk 2 "Introduction",
        TOCEntry.mk 3 "Background", TOCEntry.mk 2 "Conclusion"]).children =
      [TOCEntry.mk 2 "Introduction", TOCEntry.mk 3 "Background",
        TOCEntry.mk 2 "Conclusion"] :=
  hierarchy_preorder_preserves_order _ (by decide)

/-- C3: for every ordered TOC entry sequence (levels ≥ 1), the tree built by
the Hierarchy Builder's stack rule contains one node per entry (its preorder
flattening has exactly one entry per input entry, so no entry is dropped),
and every node except the synthetic level-0 root has a parent whose level is
strictly less than its own, including across level jumps. -/
theorem hierarchy_wellNested_no_drop (entries : List TOCEntry)
    (h : ∀ e ∈ entries, 1 ≤ e.level) :
    nodeWellNested (buildTree entries) = true ∧
    (flattenForest (buildTree entries).children).length = entries.length :=
  ⟨nodeWellNested_buildTree entries h,
    by rw [flattenForest_children_buildTree]⟩

/-- Witness for C3: an H2 followed directly by an H4 (level jump). -/
theorem hierarchy_wellNested_no_drop_witness :
    nodeWellNested (buildTree [TOCEntry.mk 2 "Overview",
        TOCEntry.mk 4 "Detail"]) = true ∧
    (flattenForest (buildTree [TOCEntry.mk 2 "Overview",
        TOCEntry.mk 4 "Detail"]).children).length =
      [TOCEntry.mk 2 "Overview", TOCEntry.mk 4 "Detail"].length :=
  hierarchy_wellNested_no_drop _ (by decide)

/-! ## Heading Aligner -/

/-- Number of leading `#` characters of a line. -/
def countLeadingHashes : List Char → Nat
  | '#' :: cs => countLeadingHashes cs + 1
  | _ => 0

/-- Modelled from the spec: heading-line recognition of the TOC Parser and
Heading Aligner (missing `core.py`) — one-or-more `#` characters, a space,
then the heading text; returns the marker count (level) and the text. -/
def headingOf? (line : String) : Option (Nat × String) :=
  let n := countLeadingHashes line.data
  if n = 0 then none
  else
    match line.data.drop n with
    | ' ' :: rest => some (n, String.mk rest)
    | _ => none

/-- Levels of the heading lines of a fragment, in order. -/
def headingLevels (lines : List String) : List Nat :=
  lines.filterMap (fun l => (headingOf? l).map Prod.fst)

/-- Minimum of a list of naturals, `none` on the empty list. -/
def listMin : List Nat → Option Nat
  | [] => none
  | x :: xs =>
    some (match listMin xs with
      | none => x
      | some m => min x m)

/-- Modelled from the spec: clamp a shifted heading level into the valid
range `[1, 6]` (missing `core.py`) — out-of-range levels are clamped, not
wrapped. -/
def clampLevel (i : Int) : Nat := (max 1 (min 6 i)).toNat

/-- Modelled from the spec: shift one line of a fragment by the signed
amount `delta` if it is a heading line, clamping the result; non-heading
lines pass through unchanged (missing `core.py`). -/
def shiftHeadingLine (delta : Int) (line : String) : String :=
  match headingOf? line with
  | none => line
  | some (n, text) =>
    String.mk (List.replicate (clampLevel ((n : Int) + delta)) '#' ++ ' ' :: text.data)

/-- Modelled from the spec: the Heading Aligner (missing `core.py`) —
determine the fragment's minimum ("top") heading level, compute the signed
shift landing it at the target depth, and apply it uniformly to every
heading line; a fragment with no headings is left unchanged (the assembler
inserts a synthetic heading for it). -/
def alignFragment (lines : List String) (target : Nat) : List String :=
  match listMin (headingLevels lines) with
  | none => lines
  | some t => lines.map (shiftHeadingLine ((target : Int) - (t : Int)))

theorem countLeadingHashes_replicate_space (k : Nat) (rest : List Char) :
    countLeadingHashes (List.replicate k '#' ++ ' ' :: rest) = k := by
  induction k with
  | zero => simp [countLeadingHashes]
  | succ k ih => simpa [List.replicate_succ, countLeadingHashes] using ih

theorem headingOf_shiftHeadingLine (delta : Int) (line : String) :
    headingOf? (shiftHeadingLine delta line) =
      (headingOf? line).map (fun p => (clampLevel ((p.1 : Int) + delta), p.2)) := by
  cases h : headingOf? line with
  | none => simp [shiftHeadingLine, h]
  | some p =>
    obtain ⟨n, text⟩ := p
    have h1 : 1 ≤ clampLevel ((n : Int) + delta) := by
      simp only [clampLevel]
      omega
    simp only [shiftHeadingLine, h, Option.map_some]
    rw [headingOf?]
    simp only [countLeadingHashes_replicate_space]
    rw [if_neg (by omega)]
    rw [List.drop_append_of_le_length (by simp)]
    simp

theorem headingLevels_map_shift (delta : Int) (lines : List String) :
    headingLevels (lines.map (shiftHeadingLine delta)) =
      (headingLevels lines).map (fun n : Nat => clampLevel ((n : Int) + delta)) := by
  induction lines with
  | nil => rfl
  | cons l ls ih =>
    simp only [headingLevels, List.map_cons, List.filterMap_cons] at ih ⊢
    rw [headingOf_shiftHeadingLine]
    cases h : headingOf? l with
    | none => simpa [h] using ih
    | some p => simpa [h] using congrArg (List.cons (clampLevel ((p.1 : Int) + delta))) ih

theorem listMin_map_mono (f : Nat → Nat) (hf : Monotone f) (xs : List Nat) :
    listMin (xs.map f) = (listMin xs).map f := by
  induction xs with
  | nil => rfl
  | cons x xs ih =>
    cases h : listMin xs with
    | none =>
      rw [h] at ih
      simp [listMin, ih, h]
    | some m =>
      rw [h] at ih
      simp [listMin, ih, h, hf.map_min]

theorem clampShift_mono (delta : Int) :
    Monotone (fun n : Nat => clampLevel ((n : Int) + delta)) := by
  intro a b hab
  simp only [clampLevel]
  omega

/-- C2: for every fragment with at least one heading, whose minimum heading
level is `t`, and every target depth `d`, the Heading Aligner shifts every
heading line by the same signed amount `d - t` and clamps every resulting
level into `[1, 6]`: the aligned fragment's heading levels are exactly the
original ones shifted by `d - t` and clamped, the aligned top heading level
equals `max 1 (min 6 d)`, and no level wraps outside `[1, 6]`. -/
theorem alignFragment_spec (lines : List String) (d t : Nat)
    (h : listMin (headingLevels lines) = some t) :
    headingLevels (alignFragment lines d) =
      (headingLevels lines).map (fun n : Nat => clampLevel ((n : Int) + ((d : Int) - (t : Int)))) ∧
    listMin (headingLevels (alignFragment lines d)) = some (max 1 (min 6 d)) ∧
    ∀ n ∈ headingLevels (alignFragment lines d), 1 ≤ n ∧ n ≤ 6 := by
  have hmap : headingLevels (alignFragment lines d) =
      (headingLevels lines).map (fun n : Nat => clampLevel ((n : Int) + ((d : Int) - (t : Int)))) := by
    rw [alignFragment, h]
    exact headingLevels_map_shift _ lines
  refine ⟨hmap, ?_, ?_⟩
  · rw [hmap, listMin_map_mono _ (clampShift_mono _), h]
    show some (clampLevel ((t : Int) + ((d : Int) - (t : Int)))) = some (max 1 (min 6 d))
    have hc : clampLevel ((t : Int) + ((d : Int) - (t : Int))) = max 1 (min 6 d) := by
      simp only [clampLevel]
      omega
    rw [hc]
  · intro n hn
    rw [hmap] at hn
    obtain ⟨m, _, rfl⟩ := List.mem_map.mp hn
    simp only [clampLevel]
    omega

/-- Witness for C2 at a concrete fragment and target depth. -/
theorem alignFragment_spec_witness :
    listMin (headingLevels ["## Intro", "body text", "### Sub"]) = some 2 ∧
    headingLevels (alignFragment ["## Intro", "body text", "### Sub"] 3) =
      (headingLevels ["## Intro", "body text", "### Sub"]).map
        (fun n : Nat => clampLevel ((n : Int) + ((3 : Int) - (2 : Int)))) ∧
    listMin (headingLevels (alignFragment ["## Intro", "body text", "### Sub"] 3)) =
      some (max 1 (min 6 3)) :=
  ⟨by decide, (alignFragment_spec _ 3 2 (by decide)).1,
    (alignFragment_spec _ 3 2 (by decide)).2.1⟩

/-! ## Slug / anchor generation -/

theorem dropWhile_length_le {α : Type} (p : α → Bool) (l : List α) :
    (l.dropWhile p).length ≤ l.length := by
  induction l with
  | nil => simp
  | cons c cs ih =>
    rw [List.dropWhile_cons]
    by_cases h : p c
    · rw [if_pos h]
      simp
      omega
    · rw [if_neg h]

/-- A character that survives into a slug: a letter or a digit. -/
def isSlugChar (c : Char) : Bool := c.isAlphanum

/-- Lowercased character sequence of a string. -/
def lowerChars (s : String) : List Char := s.data.map Char.toLower

/-- Accumulator pass extracting maximal alphanumeric runs: `cur` holds the
reversed characters of the run currently being read. -/
def runsAux (cur : List Char) : List Char → List (List Char)
  | [] => if cur.isEmpty then [] else [cur.reverse]
  | c :: cs =>
    if isSlugChar c then runsAux (c :: cur) cs
    else if cur.isEmpty then runsAux [] cs
    else cur.reverse :: runsAux [] cs

/-- The maximal alphanumeric runs of a character list, in order. -/
def alnumRuns (cs : List Char) : List (List Char) := runsAux [] cs

theorem alnumRuns_cons_not (c : Char) (cs : List Char) (h : ¬ isSlugChar c) :
    alnumRuns (c :: cs) = alnumRuns cs := by
  simp [alnumRuns, runsAux, h]

theorem runsAux_acc (cs : List Char) : ∀ cur : List Char, cur ≠ [] →
    runsAux cur cs =
      (cur.reverse ++ cs.takeWhile isSlugChar) :: alnumRuns (cs.dropWhile isSlugChar) := by
  induction cs with
  | nil =>
    intro cur hcur
    simp [runsAux, List.isEmpty_iff, hcur, alnumRuns]
  | cons c cs ih =>
    intro cur hcur
    by_cases h : isSlugChar c
    · rw [runsAux, if_pos h, ih (c :: cur) (by simp), List.takeWhile_cons,
        List.dropWhile_cons, if_pos h, if_pos h]
      simp
    · rw [runsAux, if_neg h, if_neg (by simpa [List.isEmpty_iff] using hcur),
        List.takeWhile_cons, List.dropWhile_cons, if_neg h, if_neg h]
      rw [alnumRuns_cons_not c cs h]
      simp [alnumRuns]

theorem alnumRuns_cons_pos (c : Char) (cs : List Char) (h : isSlugChar c) :
    alnumRuns (c :: cs) =
      (c :: cs.takeWhile isSlugChar) :: alnumRuns (cs.dropWhile isSlugChar) := by
  rw [alnumRuns, runsAux, if_pos h, runsAux_acc cs [c] (by simp)]
  simp

/-- Modelled from the spec: collapse every non-alphanumeric run to a single
`-` separator, dropping a trailing run entirely (missing `core.py`). -/
def collapseRuns : List Char → List Char
  | [] => []
  | c :: cs =>
    if isSlugChar c then c :: collapseRuns cs
    else
      let rest := cs.dropWhile (fun d => !isSlugChar d)
      if rest.isEmpty then [] else '-' :: collapseRuns rest
termination_by cs => cs.length
decreasing_by
  · simp
  · have := dropWhile_length_le (fun d => !isSlugChar d) cs
    simp only [List.length_cons]
    omega

/-- Modelled from the spec: the slug rule (missing `core.py`) — lowercase the
title, then collapse every non-alphanumeric run to a single separator,
leading and trailing runs stripped. -/
def slug (title : String) : String :=
  String.mk (collapseRuns ((lowerChars title).dropWhile (fun c => !isSlugChar c)))

/-- The lowercase alphanumeric token sequence of a title. -/
def alnumTokens (title : String) : List String :=
  (alnumRuns (lowerChars title)).map String.mk

/-- Modelled from the spec: the Linkifier derives a node's anchor identifier
from its title using the same slug rule as the settings keys (missing
`core.py`). -/
def anchorOf (title : String) : String := slug title

/-- Join token runs with single `-` separators. -/
def joinDash : List (List Char) → List Char
  | [] => []
  | t :: ts =>
    match ts with
    | [] => t
    | _ :: _ => t ++ '-' :: joinDash ts

theorem joinDash_cons_head (c : Char) (t : List Char) (ts : List (List Char)) :
    joinDash ((c :: t) :: ts) = c :: joinDash (t :: ts) := by
  cases ts with
  | nil => rfl
  | cons u us => rfl

theorem head_dropWhile_false {α : Type} (p : α → Bool) (cs : List α)
    (r : α) (rest : List α) (h : cs.dropWhile p = r :: rest) : p r = false := by
  induction cs with
  | nil => simp at h
  | cons c cs ih =>
    rw [List.dropWhile_cons] at h
    by_cases hp : p c
    · rw [if_pos hp] at h
      exact ih h
    · rw [if_neg hp] at h
      cases h
      exact Bool.not_eq_true _ ▸ hp

theorem alnumRuns_dropWhile (cs : List Char) :
    alnumRuns (cs.dropWhile (fun d => !isSlugChar d)) = alnumRuns cs := by
  induction cs with
  | nil => rfl
  | cons c cs ih =>
    by_cases h : isSlugChar c
    · rw [List.dropWhile_cons]
      simp [h]
    · rw [List.dropWhile_cons]
      simp only [h, Bool.not_false, if_true]
      rw [ih, alnumRuns_cons_not c cs h]

theorem collapse_joinDash (n : Nat) : ∀ cs : List Char, cs.length ≤ n →
    (collapseRuns (cs.dropWhile (fun d => !isSlugChar d)) = joinDash (alnumRuns cs)) ∧
    (collapseRuns cs =
      joinDash (cs.takeWhile isSlugChar :: alnumRuns (cs.dropWhile isSlugChar))) := by
  induction n with
  | zero =>
    intro cs hcs
    have : cs = [] := List.length_eq_zero.mp (Nat.le_zero.mp hcs)
    subst this
    exact ⟨by simp [collapseRuns, alnumRuns, runsAux, joinDash],
      by simp [collapseRuns, alnumRuns, runsAux, joinDash]⟩
  | succ n ih =>
    intro cs hcs
    constructor
    · cases cs with
      | nil => simp [collapseRuns, alnumRuns, runsAux, joinDash]
      | cons c cs' =>
        have hlen : cs'.length ≤ n := by
          simp only [List.length_cons] at hcs
          omega
        by_cases h : isSlugChar c
        · rw [List.dropWhile_cons]
          simp only [h, Bool.not_true]
          rw [if_neg (by simp)]
          rw [collapseRuns, if_pos h, alnumRuns_cons_pos c cs' h, joinDash_cons_head]
          exact congrArg (List.cons c) (ih cs' hlen).2
        · rw [List.dropWhile_cons]
          simp only [h, Bool.not_false, if_true]
          rw [alnumRuns_cons_not c cs' h]
          exact (ih cs' hlen).1
    · cases cs with
      | nil => simp [collapseRuns, alnumRuns, runsAux, joinDash]
      | cons c cs' =>
        have hlen : cs'.length ≤ n := by
          simp only [List.length_cons] at hcs
          omega
        by_cases h : isSlugChar c
        · rw [collapseRuns, if_pos h, List.takeWhile_cons, List.dropWhile_cons]
          simp only [h, if_true]
          rw [joinDash_cons_head]
          exact congrArg (List.cons c) (ih cs' hlen).2
        · rw [collapseRuns, if_neg h, List.takeWhile_cons, List.dropWhile_cons]
          simp only [h, if_false, Bool.false_eq_true]
          rw [alnumRuns_cons_not c cs' h, ← alnumRuns_dropWhile cs']
          cases hrest : cs'.dropWhile (fun d => !isSlugChar d) with
          | nil => simp [joinDash, alnumRuns, runsAux]
          | cons r rest' =>
            have hr : isSlugChar r := by
              have := head_dropWhile_false (fun d => !isSlugChar d) cs' r rest' hrest
              simpa using this
            have hlen2 : (r :: rest').length ≤ n := by
              have := dropWhile_length_le (fun d => !isSlugChar d) cs'
              rw [hrest] at this
              omega
            have hmain := (ih (r :: rest') hlen2).1
            rw [List.dropWhile_cons] at hmain
            simp only [hr, Bool.not_true] at hmain
            rw [if_neg (by simp)] at hmain
            simp only [List.isEmpty_cons, if_false, Bool.false_eq_true]
            rw [alnumRuns_cons_pos r rest' hr] at hmain ⊢
            rw [show joinDash ([] :: (r :: List.takeWhile isSlugChar rest') ::
              alnumRuns (List.dropWhile isSlugChar rest')) =
              '-' :: joinDash ((r :: List.takeWhile isSlugChar rest') ::
                alnumRuns (List.dropWhile isSlugChar rest')) from rfl]
            exact congrArg (List.cons '-') hmain

theorem slug_eq_joinDash (s : String) :
    slug s = String.mk (joinDash (alnumRuns (lowerChars s))) := by
  rw [slug, (collapse_joinDash (lowerChars s).length (lowerChars s) le_rfl).1]

/-- C9: the slug function is deterministic (a pure function of the title),
any two titles with the same lowercase alphanumeric token sequence receive
the same slug, and the Linkifier's anchor rule is the very slug rule used
for settings keys. -/
theorem slug_stable_under_token_eq (s₁ s₂ : String)
    (h : alnumTokens s₁ = alnumTokens s₂) :
    slug s₁ = slug s₂ ∧ anchorOf s₁ = slug s₁ ∧ anchorOf s₂ = slug s₂ := by
  refine ⟨?_, rfl, rfl⟩
  have hruns : alnumRuns (lowerChars s₁) = alnumRuns (lowerChars s₂) := by
    have hinj : Function.Injective (String.mk) := fun a b hab => by
      injection hab
    exact (List.map_injective_iff.mpr hinj) h
  rw [slug_eq_joinDash, slug_eq_joinDash, hruns]

/-- Witness for C9: two titles differing only in case, whitespace and
punctuation receive the same slug. -/
theorem slug_stable_under_token_eq_witness :
    alnumTokens "Hello, World!" = alnumTokens "  hello   world" ∧
    (slug "Hello, World!" = slug "  hello   world" ∧
     anchorOf "Hello, World!" = slug "Hello, World!" ∧
     anchorOf "  hello   world" = slug "  hello   world") :=
  ⟨by decide, slug_stable_under_token_eq _ _ (by decide)⟩

/-! ## Title Matcher — token-overlap tier -/

/-- Modelled from the spec: the Jaccard-style statistics of the Title
Matcher's token-overlap tier (missing `core.py`) — the count of shared
lowercase word tokens of title and candidate stem, and the size of the
union of the two token sets.  The score is the exact rational
`shared / union`, represented as this numerator/denominator pair and
compared by cross multiplication. -/
def tokenStats (title cand : String) : Nat × Nat :=
  let t := (alnumTokens title).dedup
  let c := (alnumTokens cand).dedup
  ((t.filter (fun x => x ∈ c)).length, (t ++ c).dedup.length)

/-- The candidate's score as an exact fraction with positive denominator
(an empty union scores `0 / 1`). -/
def scorePair (title cand : String) : Nat × Nat :=
  let p := tokenStats title cand
  if p.2 = 0 then (0, 1) else p

/-- `p` is a strictly larger fraction than `q` (cross multiplication). -/
def fracGt (p q : Nat × Nat) : Prop := q.1 * p.2 < p.1 * q.2

/-- `p` and `q` are equal fractions (cross multiplication). -/
def fracEq (p q : Nat × Nat) : Prop := p.1 * q.2 = q.1 * p.2

/-- Modelled from the spec: the matcher's deterministic preference order
(missing `core.py`) — strictly higher score first, score ties broken by
shorter filename, then by lexical order. -/
def betterCand (title a b : String) : Prop :=
  fracGt (scorePair title a) (scorePair title b) ∨
  (fracEq (scorePair title a) (scorePair title b) ∧
    (a.length < b.length ∨ (a.length = b.length ∧ a < b)))

instance (p q : Nat × Nat) : Decidable (fracGt p q) := by
  unfold fracGt
  infer_instance

instance (p q : Nat × Nat) : Decidable (fracEq p q) := by
  unfold fracEq
  infer_instance

instance (title a b : String) : Decidable (betterCand title a b) := by
  unfold betterCand
  infer_instance

/-- A candidate scores strictly above the threshold fraction `tn / td`. -/
def aboveThreshold (tn td : Nat) (title cand : String) : Prop :=
  tn * (scorePair title cand).2 < (scorePair title cand).1 * td

instance (tn td : Nat) (title cand : String) :
    Decidable (aboveThreshold tn td title cand) := by
  unfold aboveThreshold
  infer_instance

/-- Select the most preferred candidate of a list under `betterCand`. -/
def pickBest (title : String) : List String → Option String
  | [] => none
  | c :: cs =>
    match pickBest title cs with
    | none => some c
    | some b => if betterCand title c b then some c else some b

/-- Modelled from the spec: the token-overlap fallback tier of the Title
Matcher (missing `core.py`) — keep the candidates scoring strictly above
the minimum threshold `tn / td`, then pick the most preferred one. -/
def tokenOverlapMatch (tn td : Nat) (title : String) (cands : List String) :
    Option String :=
  pickBest title (cands.filter (fun c => decide (aboveThreshold tn td title c)))

theorem scorePair_den_pos (title cand : String) : 0 < (scorePair title cand).2 := by
  rw [scorePair]
  by_cases h : (tokenStats title cand).2 = 0
  · simp [h]
  · simp [h]
    omega

theorem fracGt_trans (p q r : Nat × Nat) (hp : 0 < p.2) (hq : 0 < q.2) (hr : 0 < r.2)
    (h1 : fracGt p q) (h2 : fracGt q r) : fracGt p r := by
  unfold fracGt at h1 h2 ⊢
  have s1 : r.1 * q.2 * p.2 < q.1 * r.2 * p.2 := (mul_lt_mul_right hp).mpr h2
  have s2 : q.1 * p.2 * r.2 < p.1 * q.2 * r.2 := (mul_lt_mul_right hr).mpr h1
  have s3 : r.1 * p.2 * q.2 < p.1 * r.2 * q.2 := by
    calc r.1 * p.2 * q.2 = r.1 * q.2 * p.2 := by ring
      _ < q.1 * r.2 * p.2 := s1
      _ = q.1 * p.2 * r.2 := by ring
      _ < p.1 * q.2 * r.2 := s2
      _ = p.1 * r.2 * q.2 := by ring
  exact (mul_lt_mul_right hq).mp s3

theorem fracEq_fracGt_trans (p q r : Nat × Nat) (hp : 0 < p.2) (hq : 0 < q.2)
    (he : fracEq p q) (h2 : fracGt q r) : fracGt p r := by
  unfold fracEq at he
  unfold fracGt at h2 ⊢
  have s3 : r.1 * p.2 * q.2 < p.1 * r.2 * q.2 := by
    calc r.1 * p.2 * q.2 = r.1 * q.2 * p.2 := by ring
      _ < q.1 * r.2 * p.2 := (mul_lt_mul_right hp).mpr h2
      _ = q.1 * p.2 * r.2 := by ring
      _ = p.1 * q.2 * r.2 := by rw [← he]
      _ = p.1 * r.2 * q.2 := by ring
  exact (mul_lt_mul_right hq).mp s3

theorem fracGt_fracEq_trans (p q r : Nat × Nat) (hq : 0 < q.2) (hr : 0 < r.2)
    (h1 : fracGt p q) (he : fracEq q r) : fracGt p r := by
  unfold fracEq at he
  unfold fracGt at h1 ⊢
  have s3 : r.1 * p.2 * q.2 < p.1 * r.2 * q.2 := by
    calc r.1 * p.2 * q.2 = r.1 * q.2 * p.2 := by ring
      _ = q.1 * r.2 * p.2 := by rw [← he]
      _ = q.1 * p.2 * r.2 := by ring
      _ < p.1 * q.2 * r.2 := (mul_lt_mul_right hr).mpr h1
      _ = p.1 * r.2 * q.2 := by ring
  exact (mul_lt_mul_right hq).mp s3

theorem fracEq_trans (p q r : Nat × Nat) (hq : 0 < q.2)
    (h1 : fracEq p q) (h2 : fracEq q r) : fracEq p r := by
  unfold fracEq at h1 h2 ⊢
  have s3 : p.1 * r.2 * q.2 = r.1 * p.2 * q.2 := by
    calc p.1 * r.2 * q.2 = p.1 * q.2 * r.2 := by ring
      _ = q.1 * p.2 * r.2 := by rw [h1]
      _ = q.1 * r.2 * p.2 := by ring
      _ = r.1 * q.2 * p.2 := by rw [h2]
      _ = r.1 * p.2 * q.2 := by ring
  exact Nat.eq_of_mul_eq_mul_right hq s3

theorem betterCand_total (title a b : String) (h : a ≠ b) :
    betterCand title a b ∨ betterCand title b a := by
  unfold betterCand fracGt fracEq
  rcases Nat.lt_trichotomy ((scorePair title b).1 * (scorePair title a).2)
      ((scorePair title a).1 * (scorePair title b).2) with hs | hs | hs
  · exact Or.inl (Or.inl hs)
  · rcases Nat.lt_trichotomy a.length b.length with hl | hl | hl
    · exact Or.inl (Or.inr ⟨hs.symm, Or.inl hl⟩)
    · rcases lt_or_gt_of_ne h with hx | hx
      · exact Or.inl (Or.inr ⟨hs.symm, Or.inr ⟨hl, hx⟩⟩)
      · exact Or.inr (Or.inr ⟨hs, Or.inr ⟨hl.symm, hx⟩⟩)
    · exact Or.inr (Or.inr ⟨hs, Or.inl hl⟩)
  · exact Or.inr (Or.inl hs)

theorem betterCand_trans (title a b c : String)
    (h1 : betterCand title a b) (h2 : betterCand title b c) :
    betterCand title a c := by
  have ha := scorePair_den_pos title a
  have hb := scorePair_den_pos title b
  have hc := scorePair_den_pos title c
  rcases h1 with h1 | ⟨he1, h1⟩
  · rcases h2 with h2 | ⟨he2, h2⟩
    · exact Or.inl (fracGt_trans _ _ _ ha hb hc h1 h2)
    · exact Or.inl (fracGt_fracEq_trans _ _ _ hb hc h1 he2)
  · rcases h2 with h2 | ⟨he2, h2⟩
    · exact Or.inl (fracEq_fracGt_trans _ _ _ ha hb he1 h2)
    · refine Or.inr ⟨fracEq_trans _ _ _ hb he1 he2, ?_⟩
      rcases h1 with h1 | ⟨hl1, hx1⟩
      · rcases h2 with h2 | ⟨hl2, hx2⟩
        · exact Or.inl (lt_trans h1 h2)
        · exact Or.inl (hl2 ▸ h1)
      · rcases h2 with h2 | ⟨hl2, hx2⟩
        · exact Or.inl (hl1 ▸ h2)
        · exact Or.inr ⟨hl1.trans hl2, lt_trans hx1 hx2⟩

theorem pickBest_mem (title : String) (l : List String) (m : String)
    (h : pickBest title l = some m) : m ∈ l := by
  induction l generalizing m with
  | nil => simp [pickBest] at h
  | cons c cs ih =>
    rw [pickBest] at h
    split at h
    · cases h
      exact List.mem_cons_self _ _
    · rename_i b hp
      split at h
      · cases h
        exact List.mem_cons_self _ _
      · cases h
        exact List.mem_cons_of_mem _ (ih _ hp)

theorem pickBest_eq_none (title : String) (l : List String)
    (h : pickBest title l = none) : l = [] := by
  cases l with
  | nil => rfl
  | cons c cs =>
    rw [pickBest] at h
    split at h
    · cases h
    · split at h <;> cases h

theorem pickBest_best (title : String) (l : List String) (m : String)
    (h : pickBest title l = some m) :
    ∀ c ∈ l, c ≠ m → betterCand title m c := by
  induction l generalizing m with
  | nil => simp [pickBest] at h
  | cons c cs ih =>
    rw [pickBest] at h
    split at h
    · rename_i hp
      cases h
      have := pickBest_eq_none title cs hp
      subst this
      intro x hx hne
      rcases List.mem_cons.mp hx with rfl | hx
      · exact absurd rfl hne
      · exact absurd hx (List.not_mem_nil x)
    · rename_i b hp
      split at h
      · rename_i hbet
        cases h
        intro x hx hne
        rcases List.mem_cons.mp hx with rfl | hx
        · exact absurd rfl hne
        · by_cases hxb : x = b
          · exact hxb ▸ hbet
          · exact betterCand_trans title c b x hbet (ih b hp x hx hxb)
      · rename_i hbet
        cases h
        intro x hx hne
        rcases List.mem_cons.mp hx with rfl | hx
        · rcases betterCand_total title x m hne with hx1 | hx1
          · exact absurd hx1 hbet
          · exact hx1
        · exact ih m hp x hx hne

/-- C6: the token-overlap tier returns only a candidate scoring strictly
above the minimum threshold, and the returned candidate is preferred over
every other qualifying candidate — strictly higher Jaccard-style score, or
on a score tie shorter filename first and then lexical order,
deterministically. -/
theorem tokenOverlapMatch_spec (tn td : Nat) (title : String)
    (cands : List String) (m : String)
    (h : tokenOverlapMatch tn td title cands = some m) :
    m ∈ cands ∧ aboveThreshold tn td title m ∧
    ∀ c ∈ cands, aboveThreshold tn td title c → c ≠ m →
      betterCand title m c := by
  rw [tokenOverlapMatch] at h
  have hmem := pickBest_mem _ _ _ h
  have hm := List.mem_filter.mp hmem
  refine ⟨hm.1, by simpa using hm.2, ?_⟩
  intro c hc hsc hne
  exact pickBest_best _ _ _ h c (List.mem_filter.mpr ⟨hc, by simpa using hsc⟩) hne

/-- C6 companion: the tier reports no match exactly when no candidate
scores strictly above the threshold. -/
theorem tokenOverlapMatch_none (tn td : Nat) (title : String)
    (cands : List String) (h : tokenOverlapMatch tn td title cands = none) :
    ∀ c ∈ cands, ¬ aboveThreshold tn td title c := by
  rw [tokenOverlapMatch] at h
  have hnil := pickBest_eq_none _ _ h
  intro c hc hsc
  have : c ∈ ([] : List String) :=
    hnil ▸ List.mem_filter.mpr ⟨hc, by simpa using hsc⟩
  exact absurd this (List.not_mem_nil c)

/-- Witness for C6: the scenario of spec section 8 — the stem sharing the
tokens "executive" and "summary" wins the token-overlap tier with
threshold 1/10. -/
theorem tokenOverlapMatch_spec_witness :
    tokenOverlapMatch 1 10 "Executive Summary - Draft v2"
      ["executive_summary.md", "meeting_notes.md"] = some "executive_summary.md" ∧
    "executive_summary.md" ∈ ["executive_summary.md", "meeting_notes.md"] ∧
    aboveThreshold 1 10 "Executive Summary - Draft v2" "executive_summary.md" :=
  ⟨by decide, (tokenOverlapMatch_spec 1 10 "Executive Summary - Draft v2"
      ["executive_summary.md", "meeting_notes.md"] "executive_summary.md"
      (by decide)).1,
    (tokenOverlapMatch_spec 1 10 "Executive Summary - Draft v2"
      ["executive_summary.md", "meeting_notes.md"] "executive_summary.md"
      (by decide)).2.1⟩

/-! ## TOC Parser -/

/-- Split a character stream at newline characters. -/
def splitNL : List Char → List (List Char)
  | [] => [[]]
  | c :: cs =>
    if c = '\n' then [] :: splitNL cs
    else
      match splitNL cs with
      | [] => [[c]]
      | l :: ls => (c :: l) :: ls

/-- The lines of a text. -/
def linesOf (s : String) : List String := (splitNL s.data).map String.mk

/-- Modelled from the spec: a TOC list-item line (missing `core.py`) — a
bulleted line beginning with a list marker, after optional indentation. -/
def isBulletLine (line : String) : Bool :=
  match line.data.dropWhile (fun c => c = ' ') with
  | '-' :: ' ' :: _ => true
  | '*' :: ' ' :: _ => true
  | _ => false

/-- Text of a list-item line after its marker. -/
def bulletText (line : String) : String :=
  String.mk ((line.data.dropWhile (fun c => c = ' ')).drop 2)

/-- Modelled from the spec: the TOC Parser's line loop (missing `core.py`)
carrying the nearest preceding heading's level — heading lines become
entries at their marker count, list items nested under a heading become
sub-entries one level deeper, all other lines are ignored for structure. -/
def parseTOCLines : Option Nat → List String → List TOCEntry
  | _, [] => []
  | cur, line :: rest =>
    match headingOf? line with
    | some (n, text) => ⟨n, text⟩ :: parseTOCLines (some n) rest
    | none =>
      if isBulletLine line then
        match cur with
        | some n => ⟨n + 1, bulletText line⟩ :: parseTOCLines cur rest
        | none => parseTOCLines cur rest
      else parseTOCLines cur rest

/-- Modelled from the spec: the TOC Parser (missing `core.py`) — the ordered
entry sequence of the TOC text. -/
def parseTOC (text : String) : List TOCEntry := parseTOCLines none (linesOf text)

theorem parseTOCLines_no_heading (lines : List String)
    (h : ∀ line ∈ lines, headingOf? line = none) :
    parseTOCLines none lines = [] := by
  induction lines with
  | nil => rfl
  | cons line rest ih =>
    rw [parseTOCLines, h line (List.mem_cons_self _ _)]
    have hrest := ih (fun l hl => h l (List.mem_cons_of_mem _ hl))
    by_cases hb : isBulletLine line
    · simp [hb, hrest]
    · simp [hb, hrest]

/-! ## Marking the TOC node -/

/-- Modelled from the spec: a node denotes the table-of-contents section
when its title equals "Table of Contents", case-insensitively (missing
`core.py`). -/
def isTOCTitle (t : String) : Bool := lowerChars t = "table of contents".data

mutual

/-- Modelled from the spec: mark the first node in preorder whose title is
the TOC title (missing `core.py`); returns the marked tree and whether a
match was found. -/
def markNode : TOCNode → TOCNode × Bool
  | .mk l t b cs =>
    if isTOCTitle t then (.mk l t true cs, true)
    else
      let r := markForest cs
      (.mk l t b r.1, r.2)

/-- Mark the first TOC-titled node of a forest, in preorder. -/
def markForest : List TOCNode → List TOCNode × Bool
  | [] => ([], false)
  | n :: ns =>
    let r := markNode n
    if r.2 then (r.1 :: ns, true)
    else
      let r2 := markForest ns
      (r.1 :: r2.1, r2.2)

end

/-- Marked tree of a build: the built tree with the TOC flag attached. -/
def markTOC (root : TOCNode) : TOCNode := (markNode root).1

mutual

/-- Number of nodes flagged as the TOC node. -/
def countTOCNode : TOCNode → Nat
  | .mk _ _ b cs => (if b then 1 else 0) + countTOCForest cs

/-- Number of flagged nodes of a forest. -/
def countTOCForest : List TOCNode → Nat
  | [] => 0
  | n :: ns => countTOCNode n + countTOCForest ns

end

mutual

/-- No node of the tree carries the TOC flag. -/
def nodeClear : TOCNode → Bool
  | .mk _ _ b cs => !b && forestClear cs

/-- No node of the forest carries the TOC flag. -/
def forestClear : List TOCNode → Bool
  | [] => true
  | n :: ns => nodeClear n && forestClear ns

end

mutual

theorem countTOCNode_of_clear (n : TOCNode) (h : nodeClear n = true) :
    countTOCNode n = 0 := by
  cases n with
  | mk l t b cs =>
    rw [nodeClear] at h
    simp only [Bool.and_eq_true, Bool.not_eq_true'] at h
    rw [countTOCNode, countTOCForest_of_clear cs h.2, h.1]
    simp

theorem countTOCForest_of_clear (ns : List TOCNode) (h : forestClear ns = true) :
    countTOCForest ns = 0 := by
  cases ns with
  | nil => rfl
  | cons n ns =>
    rw [forestClear] at h
    simp only [Bool.and_eq_true] at h
    rw [countTOCForest, countTOCNode_of_clear n h.1, countTOCForest_of_clear ns h.2]

end

mutual

theorem countTOCNode_markNode (n : TOCNode) (h : nodeClear n = true) :
    countTOCNode (markNode n).1 = (if (markNode n).2 then 1 else 0) := by
  cases n with
  | mk l t b cs =>
    rw [nodeClear] at h
    simp only [Bool.and_eq_true, Bool.not_eq_true'] at h
    by_cases ht : isTOCTitle t
    · rw [markNode]
      simp only [ht, if_true]
      rw [countTOCNode, countTOCForest_of_clear cs h.2]
      simp
    · rw [markNode]
      simp only [ht, if_false, Bool.false_eq_true]
      rw [countTOCNode, h.1, countTOCForest_markForest cs h.2]
      simp

theorem countTOCForest_markForest (ns : List TOCNode) (h : forestClear ns = true) :
    countTOCForest (markForest ns).1 = (if (markForest ns).2 then 1 else 0) := by
  cases ns with
  | nil => rfl
  | cons n ns =>
    rw [forestClear] at h
    simp only [Bool.and_eq_true] at h
    by_cases hf : (markNode n).2
    · rw [markForest]
      simp only [hf, if_true]
      rw [countTOCForest, countTOCForest_of_clear ns h.2,
        countTOCNode_markNode n h.1, if_pos hf]
    · rw [markForest]
      simp only [hf, if_false, Bool.false_eq_true]
      rw [countTOCForest, countTOCNode_markNode n h.1, if_neg hf,
        countTOCForest_markForest ns h.2]
      simp

end

theorem forestClear_iff (cs : List TOCNode) :
    forestClear cs = true ↔ ∀ c ∈ cs, nodeClear c = true := by
  induction cs with
  | nil => simp [forestClear]
  | cons c cs ih =>
    rw [forestClear]
    simp only [Bool.and_eq_true, ih, List.mem_cons]
    constructor
    · rintro ⟨h1, h2⟩ x hx
      rcases hx with rfl | hx
      · exact h1
      · exact h2 x hx
    · intro h
      exact ⟨h c (Or.inl rfl), fun x hx => h x (Or.inr hx)⟩

/-- All accumulated children of the frame are clear of TOC flags. -/
def frameClear (f : Frame) : Prop := ∀ n ∈ f.childrenRev, nodeClear n = true

/-- All frames of the builder stack are clear of TOC flags. -/
def stackClear (s : List Frame) : Prop := ∀ f ∈ s, frameClear f

theorem nodeClear_finishFrame (f : Frame) (hf : frameClear f) :
    nodeClear (finishFrame f) = true := by
  rw [finishFrame, nodeClear]
  simp only [Bool.not_false, Bool.true_and]
  rw [forestClear_iff]
  intro c hc
  exact hf c (List.mem_reverse.mp hc)

theorem frameClear_attachChild (n : TOCNode) (g : Frame)
    (hg : frameClear g) (hn : nodeClear n = true) :
    frameClear (attachChild n g) := by
  intro c hc
  rcases List.mem_cons.mp hc with rfl | hc
  · exact hn
  · exact hg c hc

theorem stackClear_popInto (lvl : Nat) (f : Frame) (s : List Frame)
    (h : stackClear (f :: s)) : stackClear (popInto lvl f s) := by
  induction s generalizing f with
  | nil =>
    intro g hg
    rcases List.mem_cons.mp hg with rfl | hg
    · exact h g (List.mem_cons_self _ _)
    · exact absurd hg (List.not_mem_nil g)
  | cons g rest ih =>
    by_cases hc : lvl ≤ f.level
    · rw [popInto, if_pos hc]
      refine ih _ ?_
      intro x hx
      rcases List.mem_cons.mp hx with rfl | hx
      · exact frameClear_attachChild _ _
          (h g (List.mem_cons_of_mem _ (List.mem_cons_self _ _)))
          (nodeClear_finishFrame f (h f (List.mem_cons_self _ _)))
      · exact h x (List.mem_cons_of_mem _ (List.mem_cons_of_mem _ hx))
    · rw [popInto, if_neg hc]
      exact h

theorem stackClear_stepEntry (s : List Frame) (e : TOCEntry)
    (h : stackClear s) : stackClear (stepEntry s e) := by
  intro f hf
  rcases List.mem_cons.mp hf with rfl | hf
  · intro n hn
    exact absurd hn (List.not_mem_nil n)
  · cases s with
    | nil => rw [popWhile] at hf; exact absurd hf (List.not_mem_nil f)
    | cons g rest =>
      rw [popWhile] at hf
      exact stackClear_popInto e.level g rest h f hf

theorem stackClear_foldl (entries : List TOCEntry) (s : List Frame)
    (h : stackClear s) : stackClear (entries.foldl stepEntry s) := by
  induction entries generalizing s with
  | nil => exact h
  | cons e es ih =>
    rw [List.foldl_cons]
    exact ih _ (stackClear_stepEntry s e h)

theorem nodeClear_finishInto (s : List Frame) (f : Frame)
    (h : stackClear (f :: s)) : nodeClear (finishInto f s) = true := by
  induction s generalizing f with
  | nil => exact nodeClear_finishFrame f (h f (List.mem_cons_self _ _))
  | cons g rest ih =>
    rw [finishInto]
    refine ih _ ?_
    intro x hx
    rcases List.mem_cons.mp hx with rfl | hx
    · exact frameClear_attachChild _ _
        (h g (List.mem_cons_of_mem _ (List.mem_cons_self _ _)))
        (nodeClear_finishFrame f (h f (List.mem_cons_self _ _)))
    · exact h x (List.mem_cons_of_mem _ (List.mem_cons_of_mem _ hx))

theorem nodeClear_buildTree (entries : List TOCEntry) :
    nodeClear (buildTree entries) = true := by
  have hs : stackClear (entries.foldl stepEntry [⟨0, "", []⟩]) := by
    refine stackClear_foldl entries _ ?_
    intro f hf
    rcases List.mem_cons.mp hf with rfl | hf
    · intro n hn
      exact absurd hn (List.not_mem_nil n)
    · exact absurd hf (List.not_mem_nil f)
  rw [buildTree]
  cases hb : entries.foldl stepEntry [⟨0, "", []⟩] with
  | nil => rw [finishAll, nodeClear, forestClear]; rfl
  | cons f rest =>
    rw [hb] at hs
    exact nodeClear_finishInto rest f hs

theorem countTOC_markTOC_buildTree (entries : List TOCEntry) :
    countTOCNode (markTOC (buildTree entries)) ≤ 1 := by
  rw [markTOC, countTOCNode_markNode _ (nodeClear_buildTree entries)]
  by_cases h : (markNode (buildTree entries)).2 <;> simp [h]

mutual

/-- Preorder sequence of (TOC flag, title) pairs of a tree. -/
def preorderFlags : TOCNode → List (Bool × String)
  | .mk _ t b cs => (b, t) :: forestFlags cs

/-- Preorder flag/title pairs of a forest. -/
def forestFlags : List TOCNode → List (Bool × String)
  | [] => []
  | n :: ns => preorderFlags n ++ forestFlags ns

end

/-- Flag the first TOC-titled element of a flag/title sequence, leaving
everything else unchanged. -/
def markFirstTOC : List (Bool × String) → List (Bool × String)
  | [] => []
  | (b, t) :: rest =>
    if isTOCTitle t then (true, t) :: rest else (b, t) :: markFirstTOC rest

theorem markFirstTOC_of_any_false (xs : List (Bool × String))
    (h : xs.any (fun q => isTOCTitle q.2) = false) : markFirstTOC xs = xs := by
  induction xs with
  | nil => rfl
  | cons x rest ih =>
    obtain ⟨b, t⟩ := x
    rw [List.any_cons, Bool.or_eq_false_iff] at h
    rw [markFirstTOC, if_neg (by simpa using h.1), ih h.2]

theorem markFirstTOC_append_of_any_false (xs ys : List (Bool × String))
    (h : xs.any (fun q => isTOCTitle q.2) = false) :
    markFirstTOC (xs ++ ys) = xs ++ markFirstTOC ys := by
  induction xs with
  | nil => rfl
  | cons x rest ih =>
    obtain ⟨b, t⟩ := x
    rw [List.any_cons, Bool.or_eq_false_iff] at h
    rw [List.cons_append, markFirstTOC, if_neg (by simpa using h.1), ih h.2]
    rfl

theorem markFirstTOC_append_of_any_true (xs ys : List (Bool × String))
    (h : xs.any (fun q => isTOCTitle q.2) = true) :
    markFirstTOC (xs ++ ys) = markFirstTOC xs ++ ys := by
  induction xs with
  | nil => simp at h
  | cons x rest ih =>
    obtain ⟨b, t⟩ := x
    rw [List.any_cons] at h
    by_cases ht : isTOCTitle t
    · rw [List.cons_append, markFirstTOC, if_pos ht, markFirstTOC, if_pos ht,
        List.cons_append]
    · have hrest : rest.any (fun q => isTOCTitle q.2) = true := by
        simpa [ht] using h
      rw [List.cons_append, markFirstTOC, if_neg ht, markFirstTOC, if_neg ht,
        ih hrest, List.cons_append]

mutual

theorem markNode_found (n : TOCNode) :
    (markNode n).2 = (preorderFlags n).any (fun q => isTOCTitle q.2) := by
  cases n with
  | mk l t b cs =>
    rw [preorderFlags, List.any_cons]
    by_cases ht : isTOCTitle t
    · rw [markNode]
      simp [ht]
    · rw [markNode]
      simp only [ht, if_false, Bool.false_eq_true, Bool.false_or]
      exact markForest_found cs

theorem markForest_found (ns : List TOCNode) :
    (markForest ns).2 = (forestFlags ns).any (fun q => isTOCTitle q.2) := by
  cases ns with
  | nil => rfl
  | cons n ns =>
    rw [forestFlags, List.any_append]
    by_cases hf : (markNode n).2
    · rw [markForest]
      simp only [hf, if_true]
      rw [markNode_found n] at hf
      simp [hf]
    · rw [markForest]
      simp only [hf, if_false, Bool.false_eq_true]
      rw [markNode_found n] at hf
      simp only [Bool.not_eq_true] at hf
      rw [hf, Bool.false_or]
      exact markForest_found ns

end

mutual

theorem preorderFlags_markNode (n : TOCNode) :
    preorderFlags (markNode n).1 = markFirstTOC (preorderFlags n) := by
  cases n with
  | mk l t b cs =>
    by_cases ht : isTOCTitle t
    · rw [markNode]
      simp only [ht, if_true]
      rw [preorderFlags, preorderFlags, markFirstTOC, if_pos ht]
    · rw [markNode]
      simp only [ht, if_false, Bool.false_eq_true]
      rw [preorderFlags, preorderFlags, markFirstTOC, if_neg ht,
        forestFlags_markForest cs]

theorem forestFlags_markForest (ns : List TOCNode) :
    forestFlags (markForest ns).1 = markFirstTOC (forestFlags ns) := by
  cases ns with
  | nil => rfl
  | cons n ns =>
    rw [forestFlags]
    by_cases hf : (markNode n).2
    · rw [markForest]
      simp only [hf, if_true]
      rw [forestFlags, preorderFlags_markNode n,
        markFirstTOC_append_of_any_true _ _ (by rw [← markNode_found n]; exact hf)]
    · rw [markForest]
      simp only [hf, if_false, Bool.false_eq_true]
      have hfalse : (preorderFlags n).any (fun q => isTOCTitle q.2) = false := by
        rw [← markNode_found n]
        simpa using hf
      rw [forestFlags, preorderFlags_markNode n, markFirstTOC_of_any_false _ hfalse,
        forestFlags_markForest ns, markFirstTOC_append_of_any_false _ _ hfalse]

end

mutual

theorem flattenNode_markNode (n : TOCNode) :
    flattenNode (markNode n).1 = flattenNode n := by
  cases n with
  | mk l t b cs =>
    by_cases ht : isTOCTitle t
    · rw [markNode]
      simp [ht]
    · rw [markNode]
      simp only [ht, if_false, Bool.false_eq_true]
      rw [flattenNode_mk, flattenNode_mk, flattenForest_markForest cs]

theorem flattenForest_markForest (ns : List TOCNode) :
    flattenForest (markForest ns).1 = flattenForest ns := by
  cases ns with
  | nil => rfl
  | cons n ns =>
    by_cases hf : (markNode n).2
    · rw [markForest]
      simp only [hf, if_true]
      rw [flattenForest_cons, flattenForest_cons, flattenNode_markNode n]
    · rw [markForest]
      simp only [hf, if_false, Bool.false_eq_true]
      rw [flattenForest_cons, flattenForest_cons, flattenNode_markNode n,
        flattenForest_markForest ns]

end

mutual

theorem preorderFlags_titles (n : TOCNode) :
    (preorderFlags n).map Prod.snd = (flattenNode n).map (fun e => e.title) := by
  cases n with
  | mk l t b cs =>
    rw [preorderFlags, flattenNode_mk, List.map_cons, List.map_cons,
      forestFlags_titles cs]

theorem forestFlags_titles (ns : List TOCNode) :
    (forestFlags ns).map Prod.snd = (flattenForest ns).map (fun e => e.title) := by
  cases ns with
  | nil => rfl
  | cons n ns =>
    rw [forestFlags, flattenForest_cons, List.map_append, List.map_append,
      preorderFlags_titles n, forestFlags_titles ns]

end

theorem any_isTOCTitle_snd (xs : List (Bool × String)) :
    xs.any (fun q => isTOCTitle q.2) = (xs.map Prod.snd).any isTOCTitle := by
  induction xs with
  | nil => rfl
  | cons x rest ih => simp [List.any_cons, ih]

theorem any_isTOCTitle_entry (xs : List TOCEntry) :
    (xs.map (fun e => e.title)).any isTOCTitle =
      xs.any (fun e => isTOCTitle e.title) := by
  induction xs with
  | nil => rfl
  | cons x rest ih => simp [List.any_cons, ih]

/-- The marking pass finds a TOC node exactly when some entry carries the
TOC title. -/
theorem markNode_found_buildTree (entries : List TOCEntry) :
    (markNode (buildTree entries)).2 =
      entries.any (fun e => isTOCTitle e.title) := by
  rw [markNode_found, any_isTOCTitle_snd, preorderFlags_titles,
    flattenNode_buildTree, List.map_cons, List.any_cons]
  rw [show isTOCTitle (TOCEntry.mk 0 "").title = false by decide]
  rw [Bool.false_or, any_isTOCTitle_entry]

/-! ## Assembler -/

/-- One rendered piece of the output body. -/
inductive Block where
  | tocBlock (text : String)
  | fragment (title : String) (path : String)
  | placeholder (title : String)
  deriving Repr, DecidableEq

/-- Modelled from the spec: selection-set lookup (missing `core.py`) — a
slug absent from the set is included by default. -/
def includedNode (sel : String → Option Bool) (title : String) : Bool :=
  match sel (slug title) with
  | some b => b
  | none => true

/-- Modelled from the spec: a visited node's own rendering (missing
`core.py`) — the TOC node renders the linkified original TOC text and never
consults the Title Matcher; any other node renders its matched fragment, or
a clearly marked placeholder naming the missing title on no-match. -/
def renderSelf (matcher : String → Option String) (linkTOC : String)
    (n : TOCNode) : List Block × List String :=
  if n.isTOC then ([.tocBlock linkTOC], [])
  else
    match matcher n.title with
    | some p => ([.fragment n.title p], [])
    | none => ([.placeholder n.title], [n.title])

mutual

/-- Modelled from the spec: the Assembler's preorder walk (missing
`core.py`) — an excluded node is skipped together with its entire subtree;
an included node renders itself and then its children in order.  Returns
the body blocks and the diagnostic list of unmatched titles. -/
def assembleNode (sel : String → Option Bool) (matcher : String → Option String)
    (linkTOC : String) : TOCNode → List Block × List String
  | .mk l t b cs =>
    if includedNode sel t then
      let s := renderSelf matcher linkTOC (.mk l t b cs)
      let r := assembleForest sel matcher linkTOC cs
      (s.1 ++ r.1, s.2 ++ r.2)
    else ([], [])

/-- Preorder assembly of a forest, in order. -/
def assembleForest (sel : String → Option Bool) (matcher : String → Option String)
    (linkTOC : String) : List TOCNode → List Block × List String
  | [] => ([], [])
  | n :: ns =>
    let a := assembleNode sel matcher linkTOC n
    let b := assembleForest sel matcher linkTOC ns
    (a.1 ++ b.1, a.2 ++ b.2)

end

/-- The build's only fatal error kind. -/
inductive BuildError where
  | MissingTOC
  deriving Repr, DecidableEq

/-- Modelled from the spec: the whole build pass (missing `core.py`) — an
absent/unreadable TOC file (`none`) is fatal before anything else happens;
otherwise parse the TOC, build and mark the tree, and assemble its
top-level forest in preorder. -/
def runBuild (tocText : Option String) (sel : String → Option Bool)
    (matcher : String → Option String) (linkTOC : String) :
    Except BuildError (List Block × List String) :=
  match tocText with
  | none => .error .MissingTOC
  | some text =>
    .ok (assembleForest sel matcher linkTOC
      (markTOC (buildTree (parseTOC text))).children)

/-- Modelled from the spec: the output file's content after a build —
`none` when the build aborted, so no output is created or modified. -/
def buildAndWrite (tocText : Option String) (sel : String → Option Bool)
    (matcher : String → Option String) (linkTOC : String) :
    Option (List Block × List String) :=
  match runBuild tocText sel matcher linkTOC with
  | .error _ => none
  | .ok out => some out

/-- C4: marking a built tree flags exactly the first preorder node whose
title is "Table of Contents" (case-insensitively), leaving every level,
title and position unchanged; a flagged node exists iff such a title
appears among the entries, and never more than one; a flagged node's own
rendering is the linkified original TOC block, identical under any two
Title Matchers (the matcher is never consulted for it); and when included,
the assembled output places that block at the node's position, before its
children's output. -/
theorem toc_node_renders_linkified_toc (entries : List TOCEntry)
    (sel : String → Option Bool) (m₁ m₂ : String → Option String)
    (linkTOC : String) :
    preorderFlags (markTOC (buildTree entries)) =
      markFirstTOC (preorderFlags (buildTree entries)) ∧
    flattenNode (markTOC (buildTree entries)) = TOCEntry.mk 0 "" :: entries ∧
    countTOCNode (markTOC (buildTree entries)) ≤ 1 ∧
    (entries.any (fun e => isTOCTitle e.title) = false →
      countTOCNode (markTOC (buildTree entries)) = 0) ∧
    (entries.any (fun e => isTOCTitle e.title) = true →
      countTOCNode (markTOC (buildTree entries)) = 1) ∧
    (∀ n : TOCNode, n.isTOC = true →
      renderSelf m₁ linkTOC n = ([Block.tocBlock linkTOC], []) ∧
      renderSelf m₁ linkTOC n = renderSelf m₂ linkTOC n) ∧
    (∀ (l : Nat) (tt : String) (cs : List TOCNode), includedNode sel tt = true →
      assembleNode sel m₁ linkTOC (.mk l tt true cs) =
        (Block.tocBlock linkTOC :: (assembleForest sel m₁ linkTOC cs).1,
         (assembleForest sel m₁ linkTOC cs).2)) := by
  have hcount : countTOCNode (markTOC (buildTree entries)) =
      (if (markNode (buildTree entries)).2 then 1 else 0) := by
    rw [markTOC, countTOCNode_markNode _ (nodeClear_buildTree entries)]
  refine ⟨?_, ?_, ?_, ?_, ?_, ?_, ?_⟩
  · rw [markTOC]
    exact preorderFlags_markNode _
  · rw [markTOC, flattenNode_markNode, flattenNode_buildTree]
  · rw [hcount]
    by_cases hf : (markNode (buildTree entries)).2 <;> simp [hf]
  · intro hno
    rw [hcount, markNode_found_buildTree, hno]
    rfl
  · intro hyes
    rw [hcount, markNode_found_buildTree, hyes]
    rfl
  · intro n hn
    cases n with
    | mk l tt b cs =>
      rw [TOCNode.isTOC_mk] at hn
      subst hn
      constructor
      · rw [renderSelf]
        simp
      · rw [renderSelf, renderSelf]
        simp
  · intro l tt cs hin
    rw [assembleNode, if_pos hin, renderSelf]
    simp

/-- Witness for C4: a concrete TOC whose second entry is titled "Table of
Contents" — the pipeline flags it, preserves the preorder entries, renders
the linkified TOC block for it, and the assembled node leads with that
block. -/
theorem toc_node_renders_linkified_toc_witness :
    preorderFlags (markTOC (buildTree [TOCEntry.mk 2 "Intro",
        TOCEntry.mk 2 "Table of Contents"])) =
      markFirstTOC (preorderFlags (buildTree [TOCEntry.mk 2 "Intro",
        TOCEntry.mk 2 "Table of Contents"])) ∧
    flattenNode (markTOC (buildTree [TOCEntry.mk 2 "Intro",
        TOCEntry.mk 2 "Table of Contents"])) =
      TOCEntry.mk 0 "" :: [TOCEntry.mk 2 "Intro",
        TOCEntry.mk 2 "Table of Contents"] ∧
    countTOCNode (markTOC (buildTree [TOCEntry.mk 2 "Intro",
        TOCEntry.mk 2 "Table of Contents"])) = 1 ∧
    renderSelf (fun _ => none) "[toc]" (.mk 2 "Table of Contents" true []) =
      ([Block.tocBlock "[toc]"], []) ∧
    renderSelf (fun _ => none) "[toc]" (.mk 2 "Table of Contents" true []) =
      renderSelf (fun _ => some "x.md") "[toc]" (.mk 2 "Table of Contents" true []) ∧
    assembleNode (fun _ => none) (fun _ => none) "[toc]"
        (.mk 2 "Table of Contents" true []) =
      (Block.tocBlock "[toc]" ::
         (assembleForest (fun _ => none) (fun _ => none) "[toc]" []).1,
       (assembleForest (fun _ => none) (fun _ => none) "[toc]" []).2) :=
  ⟨(toc_node_renders_linkified_toc [TOCEntry.mk 2 "Intro",
      TOCEntry.mk 2 "Table of Contents"] (fun _ => none) (fun _ => none)
      (fun _ => some "x.md") "[toc]").1,
   (toc_node_renders_linkified_toc [TOCEntry.mk 2 "Intro",
      TOCEntry.mk 2 "Table of Contents"] (fun _ => none) (fun _ => none)
      (fun _ => some "x.md") "[toc]").2.1,
   (toc_node_renders_linkified_toc [TOCEntry.mk 2 "Intro",
      TOCEntry.mk 2 "Table of Contents"] (fun _ => none) (fun _ => none)
      (fun _ => some "x.md") "[toc]").2.2.2.2.1 (by decide),
   ((toc_node_renders_linkified_toc [TOCEntry.mk 2 "Intro",
      TOCEntry.mk 2 "Table of Contents"] (fun _ => none) (fun _ => none)
      (fun _ => some "x.md") "[toc]").2.2.2.2.2.1
      (.mk 2 "Table of Contents" true []) rfl).1,
   ((toc_node_renders_linkified_toc [TOCEntry.mk 2 "Intro",
      TOCEntry.mk 2 "Table of Contents"] (fun _ => none) (fun _ => none)
      (fun _ => some "x.md") "[toc]").2.2.2.2.2.1
      (.mk 2 "Table of Contents" true []) rfl).2,
   (toc_node_renders_linkified_toc [TOCEntry.mk 2 "Intro",
      TOCEntry.mk 2 "Table of Contents"] (fun _ => none) (fun _ => none)
      (fun _ => some "x.md") "[toc]").2.2.2.2.2.2 2 "Table of Contents" [] rfl⟩

/-- C5: a node excluded by the selection set contributes nothing at all to
the assembled output — neither its own content nor any descendant's,
whatever the descendants' own inclusion flags — and a slug absent from the
selection set is treated as included. -/
theorem excluded_subtree_contributes_nothing (sel : String → Option Bool)
    (matcher : String → Option String) (linkTOC : String)
    (l : Nat) (t : String) (b : Bool) (cs : List TOCNode) :
    (sel (slug t) = some false →
      assembleNode sel matcher linkTOC (.mk l t b cs) = ([], [])) ∧
    (sel (slug t) = none → includedNode sel t = true) := by
  constructor
  · intro hex
    rw [assembleNode]
    rw [if_neg (by rw [includedNode, hex]; simp)]
  · intro habs
    rw [includedNode, habs]

/-- Witness for C5: an excluding selection silences a subtree that itself
contains an included child; the empty selection includes by default. -/
theorem excluded_subtree_contributes_nothing_witness :
    assembleNode (fun _ => some false) (fun _ => none) ""
      (.mk 2 "Secret" false [.mk 3 "Child" false []]) = ([], []) ∧
    includedNode (fun _ => none) "Secret" = true :=
  ⟨(excluded_subtree_contributes_nothing (fun _ => some false)
      (fun _ => none) "" 2 "Secret" false [.mk 3 "Child" false []]).1 rfl,
   (excluded_subtree_contributes_nothing (fun _ => none)
      (fun _ => none) "" 2 "Secret" false [.mk 3 "Child" false []]).2 rfl⟩

/-- C7: when the Title Matcher reports no match for an included non-TOC
node, the Assembler emits a clearly marked placeholder naming the missing
title, records the title in the diagnostic list of unmatched titles, and
the build continues — the node's children and the remaining siblings are
still assembled. -/
theorem unmatched_title_placeholder (sel : String → Option Bool)
    (matcher : String → Option String) (linkTOC : String)
    (l : Nat) (t : String) (cs rest : List TOCNode)
    (hin : includedNode sel t = true) (hm : matcher t = none) :
    assembleNode sel matcher linkTOC (.mk l t false cs) =
      (Block.placeholder t :: (assembleForest sel matcher linkTOC cs).1,
       t :: (assembleForest sel matcher linkTOC cs).2) ∧
    t ∈ (assembleNode sel matcher linkTOC (.mk l t false cs)).2 ∧
    assembleForest sel matcher linkTOC (.mk l t false cs :: rest) =
      ((assembleNode sel matcher linkTOC (.mk l t false cs)).1 ++
         (assembleForest sel matcher linkTOC rest).1,
       (assembleNode sel matcher linkTOC (.mk l t false cs)).2 ++
         (assembleForest sel matcher linkTOC rest).2) := by
  have hnode : assembleNode sel matcher linkTOC (.mk l t false cs) =
      (Block.placeholder t :: (assembleForest sel matcher linkTOC cs).1,
       t :: (assembleForest sel matcher linkTOC cs).2) := by
    rw [assembleNode, if_pos hin, renderSelf]
    simp [hm]
  refine ⟨hnode, ?_, ?_⟩
  · rw [hnode]
    exact List.mem_cons_self _ _
  · rw [assembleForest]

/-- Witness for C7 at a concrete node with a matcher that knows nothing. -/
theorem unmatched_title_placeholder_witness :
    includedNode (fun _ => none) "Lost Chapter" = true ∧
    (fun _ => none : String → Option String) "Lost Chapter" = none ∧
    "Lost Chapter" ∈ (assembleNode (fun _ => none) (fun _ => none) ""
      (.mk 2 "Lost Chapter" false [])).2 :=
  ⟨rfl, rfl,
   (unmatched_title_placeholder (fun _ => none) (fun _ => none) ""
      2 "Lost Chapter" [] [] rfl rfl).2.1⟩

/-- C8: a missing/unreadable TOC aborts the build with `MissingTOC` before
any output is written (nothing is created or modified), a present TOC never
produces a fatal error, and a TOC with no heading lines parses to the empty
entry sequence rather than an error. -/
theorem missing_toc_fatal_empty_toc_ok (sel : String → Option Bool)
    (matcher : String → Option String) (linkTOC : String) (text : String)
    (hno : ∀ line ∈ linesOf text, headingOf? line = none) :
    runBuild none sel matcher linkTOC = .error .MissingTOC ∧
    buildAndWrite none sel matcher linkTOC = none ∧
    (∃ out, runBuild (some text) sel matcher linkTOC = .ok out) ∧
    parseTOC text = [] := by
  refine ⟨rfl, rfl, ⟨_, rfl⟩, ?_⟩
  rw [parseTOC]
  exact parseTOCLines_no_heading _ hno

/-- Witness for C8: a TOC text of plain prose and a dangling bullet. -/
theorem missing_toc_fatal_empty_toc_ok_witness :
    runBuild none (fun _ => none) (fun _ => none) "" = .error .MissingTOC ∧
    buildAndWrite none (fun _ => none) (fun _ => none) "" = none ∧
    parseTOC "just prose\n- dangling bullet" = [] :=
  ⟨(missing_toc_fatal_empty_toc_ok (fun _ => none) (fun _ => none) ""
      "just prose\n- dangling bullet" (by decide)).1,
   (missing_toc_fatal_empty_toc_ok (fun _ => none) (fun _ => none) ""
      "just prose\n- dangling bullet" (by decide)).2.1,
   (missing_toc_fatal_empty_toc_ok (fun _ => none) (fun _ => none) ""
      "just prose\n- dangling bullet" (by decide)).2.2.2⟩

/-! ## Program entry point -/

/-- Effects a run of the program entry point can perform. -/
inductive MainEffect where
  | createQApplication (argv : List String)
  | createStitcherGUI
  | showWindow
  | execEventLoop
  | raiseSystemExit (code : Int)
  | fileRead (path : String)
  | fileWrite (path : String)
  | stitchBuild
  deriving Repr, DecidableEq

/-- Shallow embedding of `main` from `src/main.pyw` as its effect trace:
construct one `QApplication` from `sys.argv`, construct one `StitcherGUI`
window, show it, run the Qt event loop, and raise `SystemExit` with the
loop's return code. -/
def mainTrace (argv : List String) (exitCode : Int) : List MainEffect :=
  [.createQApplication argv, .createStitcherGUI, .showWindow,
   .execEventLoop, .raiseSystemExit exitCode]

/-- The effect constructs a `QApplication`. -/
def isCreateApp : MainEffect → Bool
  | .createQApplication _ => true
  | _ => false

/-- The effect constructs a `StitcherGUI` window. -/
def isCreateGUI : MainEffect → Bool
  | .createStitcherGUI => true
  | _ => false

/-- The effect shows the window. -/
def isShowWindow : MainEffect → Bool
  | .showWindow => true
  | _ => false

/-- The effect reads or writes a file or performs stitching work. -/
def isFileOrStitchEffect : MainEffect → Bool
  | .fileRead _ => true
  | .fileWrite _ => true
  | .stitchBuild => true
  | _ => false

/-- C10: every invocation of `main` constructs exactly one `QApplication`
and exactly one `StitcherGUI` window, shows the window exactly once, ends
by raising `SystemExit` with the event loop's return code, and performs no
file reads, file writes or stitching work itself. -/
theorem main_constructs_gui_and_exits (argv : List String) (code : Int) :
    (mainTrace argv code).countP isCreateApp = 1 ∧
    (mainTrace argv code).countP isCreateGUI = 1 ∧
    (mainTrace argv code).countP isShowWindow = 1 ∧
    (mainTrace argv code).getLast? = some (.raiseSystemExit code) ∧
    ∀ e ∈ mainTrace argv code, isFileOrStitchEffect e = false := by
  refine ⟨?_, ?_, ?_, ?_, ?_⟩
  · rw [mainTrace]
    simp [List.countP_cons, isCreateApp]
  · rw [mainTrace]
    simp [List.countP_cons, isCreateGUI]
  · rw [mainTrace]
    simp [List.countP_cons, isShowWindow]
  · rw [mainTrace]
    rfl
  · intro e he
    rw [mainTrace] at he
    simp only [List.mem_cons, List.not_mem_nil, or_false] at he
    rcases he with rfl | rfl | rfl | rfl | rfl <;> rfl

/-- Witness for C10 at a concrete argument vector and exit code. -/
theorem main_constructs_gui_and_exits_witness :
    (mainTrace ["stitcher"] 0).countP isCreateApp = 1 ∧
    (mainTrace ["stitcher"] 0).getLast? = some (.raiseSystemExit 0) ∧
    isFileOrStitchEffect MainEffect.showWindow = false :=
  ⟨(main_constructs_gui_and_exits ["stitcher"] 0).1,
   (main_constructs_gui_and_exits ["stitcher"] 0).2.2.2.1,
   (main_constructs_gui_and_exits ["stitcher"] 0).2.2.2.2 _ (by decide)⟩

end Stitcher
